import Mathlib

/-!
Verification of the turn-scheduled peer trading core
(`client/controller/peer_server.py`, `trade_manager.py`, `turn_coordinator.py`).

Card values are integers in `[0,10]`; a peer inventory is the Python list
`self.numbers.numbers`, modelled as `List ℤ` (Python `list.count`, `list.remove`
and `list.append` become `List.count`, `List.erase` and `· ++ [x]`).
Wall-clock arithmetic (Python floats) is modelled exactly over `ℚ`.
-/

namespace Talleres

/-- JSON response of the peer server: `{"status":"accepted","given":g}`,
`{"status":"rejected","reason":r}` or `{"status":"error","reason":r}`. -/
inductive TradeResult where
  | accepted (given : ℤ)
  | rejected (reason : String)
  | error (reason : String)
  deriving DecidableEq, Repr

/-- The dict `counts = {i: current_numbers.count(i) for i in range(11)}` of
`PeerServer._process_trade`, viewed as a function (Python ints are `ℤ`). -/
def countsOf (numbers : List ℤ) : ℤ → ℤ := fun i => (numbers.count i : ℤ)

/-- Number of missing values: `sum(1 for i in range(11) if counts[i] == 0)`. -/
def missingCount (c : ℤ → ℤ) : ℕ :=
  ((List.range 11).filter (fun i => decide (c (i : ℤ) = 0))).length

/-- The dict copy of `_process_trade`'s special case:
`temp_counts = counts.copy(); temp_counts[want] -= 1; temp_counts[offer] += 1`. -/
def tempCounts (c : ℤ → ℤ) (want offer : ℤ) : ℤ → ℤ := fun i =>
  let v := if i = want then c i - 1 else c i
  if i = offer then v + 1 else v

/-- The decision chain of `PeerServer._process_trade` (the value of
`should_accept` after the nested `if`s, for in-range `offer`/`want`). -/
def shouldAccept (numbers : List ℤ) (offer want : ℤ) : Bool :=
  let c := countsOf numbers
  if c want = 0 then false
  else if c offer = 0 then true
  else if 1 < c want then true
  else decide (missingCount (tempCounts c want offer) < missingCount c)

/-- The `reason` string returned by `_process_trade` on a rejection of an
in-range request (the `"trade no beneficioso"` fallback is unreachable). -/
def rejectReason (numbers : List ℤ) (offer want : ℤ) : String :=
  if countsOf numbers want = 0 then s!"no tengo {want}"
  else s!"ya tengo {offer} y necesito mi único {want}"

/-- Responder-side mutation of an accepted trade:
`self.numbers.numbers.remove(want); self.numbers.numbers.append(offer)`. -/
def applyResponderTrade (numbers : List ℤ) (offer want : ℤ) : List ℤ :=
  (numbers.erase want) ++ [offer]

/-- Initiator-side mutation of an accepted trade (`TradeManager.attempt_trade`):
`self.numbers.numbers.remove(offer); self.numbers.numbers.append(resp["given"])`. -/
def applyInitiatorTrade (numbers : List ℤ) (offer given : ℤ) : List ℤ :=
  (numbers.erase offer) ++ [given]

/-- `PeerServer._process_trade`: from the parsed `offer`/`want` fields
(`request.get` yields `None` for a missing key, hence `Option ℤ`) and the
current inventory, to the response and the possibly mutated inventory. -/
def processTrade (offer? want? : Option ℤ) (numbers : List ℤ) :
    TradeResult × List ℤ :=
  match offer?, want? with
  | some offer, some want =>
    if 0 ≤ offer ∧ offer ≤ 10 ∧ 0 ≤ want ∧ want ≤ 10 then
      if shouldAccept numbers offer want = true ∧ 0 < countsOf numbers want then
        (.accepted want, applyResponderTrade numbers offer want)
      else
        (.rejected (rejectReason numbers offer want), numbers)
    else (.rejected "números inválidos", numbers)
  | _, _ => (.rejected "números inválidos", numbers)

/-- The acceptance policy of spec §4.3, written from the spec's words:
reject when `count(W) == 0`; else accept when `count(O) == 0`; else accept
when `count(W) > 1`; else (exactly one `W`, at least one `O`) accept iff the
swap strictly decreases the responder's number of missing values. -/
def specAccepts (numbers : List ℤ) (offer want : ℤ) : Prop :=
  countsOf numbers want ≠ 0 ∧
    (countsOf numbers offer = 0 ∨
      (countsOf numbers offer ≠ 0 ∧ 1 < countsOf numbers want) ∨
      (countsOf numbers offer ≠ 0 ∧ countsOf numbers want = 1 ∧
        missingCount (tempCounts (countsOf numbers) want offer) <
          missingCount (countsOf numbers)))

/-- Responder's reply as observed by `TradeManager.attempt_trade`: a parsed
JSON line, an empty read (`if not line`), or a connection failure
(`socket.timeout`, `ConnectionRefusedError`, `OSError`, other exceptions). -/
inductive PeerResponse where
  | line (resp : TradeResult)
  | noLine
  | connectError
  deriving DecidableEq

/-- `TradeManager.attempt_trade` outcome as a function of the responder's
reply: only a `{"status":"accepted","given":g}` line mutates the initiator's
inventory (`remove(offer); append(resp["given"])`), every other outcome
returns `False` and leaves it untouched. -/
def attemptTrade (numbers : List ℤ) (offer : ℤ) (resp : PeerResponse) :
    Bool × List ℤ :=
  match resp with
  | .line (.accepted given) => (true, applyInitiatorTrade numbers offer given)
  | _ => (false, numbers)

/-- The fields of a decoded JSON request object, as `_handle_connection_sync`
reads them via `request.get` (absent keys give `None`). -/
structure TradeRequest where
  action : Option String
  offer : Option ℤ
  want : Option ℤ
  fromPeer : Option String
  deriving DecidableEq

/-- What one inbound connection delivers to `_handle_connection_sync`:
no data (`if not data`), a payload `json.loads` rejects
(`json.JSONDecodeError`), or a decoded request object. -/
inductive InboundData where
  | empty
  | invalidJson
  | request (req : TradeRequest)
  deriving DecidableEq

/-- `PeerServer._handle_connection_sync`, as a total function from the inbound
payload and current inventory to the reply written back (`none` when the
connection is dropped without a reply) and the resulting inventory; the
Python `except` arms catch every error, so handling never propagates. -/
def handleConnectionSync (d : InboundData) (numbers : List ℤ) :
    Option TradeResult × List ℤ :=
  match d with
  | .empty => (none, numbers)
  | .invalidJson => (some (.error "invalid_json"), numbers)
  | .request req =>
      if req.action = some "trade" then
        let res := processTrade req.offer req.want numbers
        (some res.1, res.2)
      else (some (.error "unknown_action"), numbers)

/-- The `while connections_processed < max_connections_per_cycle` loop of
`PeerServer.process_once`: each pending connection is handled synchronously to
completion (the inventory is threaded through) before the next `accept`; an
empty backlog raises `BlockingIOError`, modelled by the `[]` branch. Returns
(connections processed, backlog left, final inventory). -/
def processOnceLoop (maxConn processed : ℕ) (pending : List InboundData)
    (numbers : List ℤ) : ℕ × List InboundData × List ℤ :=
  if processed < maxConn then
    match pending with
    | [] => (processed, [], numbers)
    | c :: rest =>
        processOnceLoop maxConn (processed + 1) rest
          (handleConnectionSync c numbers).2
  else (processed, pending, numbers)

/-- `PeerServer.process_once` with `max_connections_per_cycle = 5`. -/
def processOnce (pending : List InboundData) (numbers : List ℤ) :
    ℕ × List InboundData × List ℤ :=
  processOnceLoop 5 0 pending numbers

/-- Python `int()` applied to a nonnegative-or-negative real expression:
truncation toward zero, modelled exactly over `ℚ`. -/
def pyInt (q : ℚ) : ℤ := if 0 ≤ q then ⌊q⌋ else ⌈q⌉

/-- The `turn_duration` chosen by `TurnCoordinator.__init__` from the number
of clients. -/
def turnDurationFor (totalClients : ℕ) : ℚ :=
  if totalClients ≤ 3 then 10
  else if totalClients = 4 then 12
  else if totalClients = 5 then 15
  else 18

/-- `TurnCoordinator.get_current_turn` for a running coordinator
(`system_start_time` set; `elapsed = time.time() - system_start_time`):
`int(elapsed / turn_duration) % total_clients + 1`. -/
def getCurrentTurn (totalClients : ℕ) (turnDuration elapsed : ℚ) : ℤ :=
  pyInt (elapsed / turnDuration) % totalClients + 1

/-- The active turn as a pure function of wall time and the epoch. -/
def activeTurn (totalClients : ℕ) (turnDuration epoch now : ℚ) : ℤ :=
  getCurrentTurn totalClients turnDuration (now - epoch)

/-- `TurnCoordinator.is_my_turn`:
`current == my_turn and not my_turn_completed`. -/
def isMyTurn (totalClients : ℕ) (turnDuration : ℚ) (myTurn : ℤ)
    (myTurnCompleted : Bool) (elapsed : ℚ) : Bool :=
  decide (getCurrentTurn totalClients turnDuration elapsed = myTurn)
    && !myTurnCompleted

/-- `TurnCoordinator.complete_my_turn`: its only state effect is
`self.my_turn_completed = True` (idempotently). -/
def completeMyTurn (_myTurnCompleted : Bool) : Bool := true

/-- `TurnCoordinator.get_remaining_turn_time` for a running coordinator:
cycle start (`int(elapsed / cycle_duration) * cycle_duration`) plus the
per-turn offset of the current turn, subtracted from `elapsed`, clamped. -/
def getRemainingTurnTime (totalClients : ℕ) (turnDuration elapsed : ℚ) : ℚ :=
  let currentTurn := getCurrentTurn totalClients turnDuration elapsed
  let cycleDuration := (totalClients : ℚ) * turnDuration
  let currentCycleStart := (pyInt (elapsed / cycleDuration) : ℚ) * cycleDuration
  let turnStartInCycle := ((currentTurn : ℚ) - 1) * turnDuration
  let turnStartAbsolute := currentCycleStart + turnStartInCycle
  let turnElapsed := elapsed - turnStartAbsolute
  max 0 (turnDuration - turnElapsed)

lemma countsOf_nonneg (numbers : List ℤ) (v : ℤ) : 0 ≤ countsOf numbers v := by
  simp [countsOf]

lemma shouldAccept_iff (numbers : List ℤ) (offer want : ℤ) :
    shouldAccept numbers offer want = true ↔ specAccepts numbers offer want := by
  have hw := countsOf_nonneg numbers want
  simp only [shouldAccept, specAccepts]
  split_ifs with h1 h2 h3 <;> simp_all <;> omega

lemma shouldAccept_count_pos (numbers : List ℤ) (offer want : ℤ)
    (h : shouldAccept numbers offer want = true) : 0 < countsOf numbers want := by
  have hw := countsOf_nonneg numbers want
  simp only [shouldAccept] at h
  split_ifs at h <;> omega

/-- C1: for in-range `offer`/`want`, `_process_trade` accepts exactly when the
spec's four-rule acceptance policy accepts (reject on `count(W)=0`; accept on
`count(O)=0`; accept on `count(W)>1`; else accept iff the swap strictly
decreases the responder's missing values), and otherwise it rejects with a
reason string. -/
theorem processTrade_matches_policy (offer want : ℤ) (numbers : List ℤ)
    (ho : 0 ≤ offer ∧ offer ≤ 10) (hw : 0 ≤ want ∧ want ≤ 10) :
    ((∃ g, (processTrade (some offer) (some want) numbers).1 = .accepted g) ↔
      specAccepts numbers offer want) ∧
    (¬ specAccepts numbers offer want →
      ∃ r, (processTrade (some offer) (some want) numbers).1 = .rejected r) := by
  obtain ⟨ho1, ho2⟩ := ho
  obtain ⟨hw1, hw2⟩ := hw
  have hrange : 0 ≤ offer ∧ offer ≤ 10 ∧ 0 ≤ want ∧ want ≤ 10 := ⟨ho1, ho2, hw1, hw2⟩
  constructor
  · constructor
    · rintro ⟨g, hg⟩
      simp only [processTrade, if_pos hrange] at hg
      split_ifs at hg with hacc
      exact (shouldAccept_iff numbers offer want).1 hacc.1
    · intro hspec
      have hacc : shouldAccept numbers offer want = true :=
        (shouldAccept_iff numbers offer want).2 hspec
      have hpos : 0 < countsOf numbers want := shouldAccept_count_pos _ _ _ hacc
      refine ⟨want, ?_⟩
      simp [processTrade, if_pos hrange, hacc, hpos]
  · intro hspec
    have hacc : shouldAccept numbers offer want ≠ true := fun h =>
      hspec ((shouldAccept_iff numbers offer want).1 h)
    refine ⟨rejectReason numbers offer want, ?_⟩
    simp [processTrade, if_pos hrange, hacc]

/-- Closed instance of `processTrade_matches_policy` (inventory `[0,0]`,
offer `1`, want `0`: the responder lacks `1`, so the policy accepts). -/
theorem processTrade_matches_policy_witness :
    (∃ g, (processTrade (some 1) (some 0) [0, 0]).1 = .accepted g) :=
  (processTrade_matches_policy 1 0 [0, 0] (by norm_num) (by norm_num)).1.2
    (by constructor <;> simp [countsOf])

/-- C9: a trade request whose `offer` or `want` field is missing or outside
`[0,10]` is answered `{"status":"rejected","reason":"números inválidos"}` —
a rejection, not an error — and the inventory is unchanged. -/
theorem processTrade_invalid_numbers (offer? want? : Option ℤ) (numbers : List ℤ)
    (h : ¬ ((∃ o, offer? = some o ∧ 0 ≤ o ∧ o ≤ 10) ∧
            (∃ w, want? = some w ∧ 0 ≤ w ∧ w ≤ 10))) :
    processTrade offer? want? numbers = (.rejected "números inválidos", numbers) := by
  match offer?, want? with
  | none, _ => rfl
  | some o, none => rfl
  | some o, some w =>
    have hrange : ¬ (0 ≤ o ∧ o ≤ 10 ∧ 0 ≤ w ∧ w ≤ 10) := by
      intro hc
      exact h ⟨⟨o, rfl, hc.1, hc.2.1⟩, ⟨w, rfl, hc.2.2.1, hc.2.2.2⟩⟩
    simp [processTrade, if_neg hrange]

/-- Closed instance of `processTrade_invalid_numbers` (offer `11` is out of
range). -/
theorem processTrade_invalid_numbers_witness :
    processTrade (some 11) (some 0) [0] = (.rejected "números inválidos", [0]) :=
  processTrade_invalid_numbers (some 11) (some 0) [0] (by
    rintro ⟨⟨o, ho, _, _⟩, -⟩
    cases ho
    omega)

/-- C10: whenever `_process_trade` answers `{"status":"accepted","given":g}`,
`g` is exactly the requested `want` value and the responder held at least one
copy of it before the swap. -/
theorem processTrade_accepted_gives_want (offer? want? : Option ℤ)
    (numbers : List ℤ) (g : ℤ) (l : List ℤ)
    (h : processTrade offer? want? numbers = (.accepted g, l)) :
    want? = some g ∧ 0 < numbers.count g := by
  match offer?, want? with
  | none, _ => exact absurd h (by simp [processTrade])
  | some o, none => exact absurd h (by simp [processTrade])
  | some o, some w =>
    simp only [processTrade] at h
    split_ifs at h with hrange hacc
    · obtain ⟨h1, h2⟩ := Prod.mk.injEq .. ▸ h
      cases h1
      refine ⟨rfl, ?_⟩
      have := hacc.2
      simpa [countsOf] using this
    · exact absurd h (by simp)
    · exact absurd h (by simp)

/-- Closed instance of `processTrade_accepted_gives_want`. -/
theorem processTrade_accepted_gives_want_witness :
    (some 0 : Option ℤ) = some 0 ∧ 0 < List.count 0 [0, 0] :=
  processTrade_accepted_gives_want (some 1) (some 0) [0, 0] 0 [0, 1] (by decide)

/-- C3: one accepted trade with offer `O`, want `W` moves cards 1:1 — the
responder erases one `W` and appends `O`, the initiator erases one `O` and
appends the returned `given = W` — so for every value `v` the total count over
the two inventories is unchanged (preconditions: the initiator holds an `O`,
the responder holds a `W`). -/
theorem trade_conserves_counts (init resp : List ℤ) (offer want : ℤ)
    (ho : offer ∈ init) (hw : want ∈ resp) (v : ℤ) :
    (applyResponderTrade resp offer want).count v
      + (applyInitiatorTrade init offer want).count v
      = resp.count v + init.count v := by
  have h1 : 0 < resp.count want := List.count_pos_iff.2 hw
  have h2 : 0 < init.count offer := List.count_pos_iff.2 ho
  simp only [applyResponderTrade, applyInitiatorTrade, List.count_append,
    List.count_erase, List.count_singleton', beq_iff_eq]
  split_ifs <;> subst_vars <;> omega

/-- Closed instance of `trade_conserves_counts` (offer `1`, want `2`,
checking conservation of value `2`). -/
theorem trade_conserves_counts_witness :
    (applyResponderTrade [2, 0] 1 2).count 2
      + (applyInitiatorTrade [1, 1, 0] 1 2).count 2
      = List.count 2 [2, 0] + List.count 2 [1, 1, 0] :=
  trade_conserves_counts [1, 1, 0] [2, 0] 1 2 (by decide) (by decide) 2

/-- C5: a single accepted trade mutates the responder's inventory exactly once
(one `erase want`, one `append offer`, total length preserved) and the
initiator's exactly once (one `erase offer`, one `append given`); a rejected
response leaves the responder untouched, and a non-accepted outcome leaves the
initiator untouched. -/
theorem single_trade_mutates_once (offer want : ℤ) (numbers : List ℤ) :
    (∀ g l, processTrade (some offer) (some want) numbers = (.accepted g, l) →
        l = applyResponderTrade numbers offer want ∧ l.length = numbers.length) ∧
    (∀ r l, processTrade (some offer) (some want) numbers = (.rejected r, l) →
        l = numbers) ∧
    (∀ given, attemptTrade numbers offer (.line (.accepted given)) =
        (true, applyInitiatorTrade numbers offer given)) ∧
    (∀ resp : PeerResponse, (∀ g, resp ≠ .line (.accepted g)) →
        (attemptTrade numbers offer resp).2 = numbers) := by
  refine ⟨?_, ?_, fun given => rfl, ?_⟩
  · intro g l h
    simp only [processTrade] at h
    split_ifs at h with hrange hacc
    · obtain ⟨h1, h2⟩ := Prod.mk.injEq .. ▸ h
      subst h2
      have hwpos : 0 < countsOf numbers want := hacc.2
      have hmem : want ∈ numbers := by
        refine List.count_pos_iff.1 ?_
        have := hwpos
        simp only [countsOf] at this
        exact_mod_cast this
      refine ⟨rfl, ?_⟩
      have hlen : (numbers.erase want).length = numbers.length - 1 :=
        List.length_erase_of_mem hmem
      have hpos : 0 < numbers.length := List.length_pos.2 (by
        rintro rfl; simp at hmem)
      simp only [applyResponderTrade, List.length_append, List.length_cons,
        List.length_nil, hlen]
      omega
    · exact absurd h (by simp)
    · exact absurd h (by simp)
  · intro r l h
    simp only [processTrade] at h
    split_ifs at h with hrange hacc
    · exact absurd h (by simp)
    · exact (Prod.mk.injEq .. ▸ h).2.symm
    · exact (Prod.mk.injEq .. ▸ h).2.symm
  · intro resp hne
    match resp with
    | .line (.accepted g) => exact absurd rfl (hne g)
    | .line (.rejected r) => rfl
    | .line (.error r) => rfl
    | .noLine => rfl
    | .connectError => rfl

/-- Closed instance of `single_trade_mutates_once` (accepted trade on
inventory `[0,0]`, offer `1`, want `0`). -/
theorem single_trade_mutates_once_witness :
    [0, 1] = applyResponderTrade [0, 0] 1 0 ∧
      List.length [0, 1] = List.length [0, 0] :=
  (single_trade_mutates_once 1 0 [0, 0]).1 0 [0, 1] (by decide)

/-- C7: a non-JSON payload is answered
`{"status":"error","reason":"invalid_json"}`, a JSON object whose `action` is
not `"trade"` is answered `{"status":"error","reason":"unknown_action"}`, and
in both cases the inventory is unchanged (handling is a total function: no
input makes it propagate an error). -/
theorem handleConnection_errors (numbers : List ℤ) :
    handleConnectionSync .invalidJson numbers =
      (some (.error "invalid_json"), numbers) ∧
    (∀ req : TradeRequest, req.action ≠ some "trade" →
      handleConnectionSync (.request req) numbers =
        (some (.error "unknown_action"), numbers)) := by
  refine ⟨rfl, fun req hne => ?_⟩
  simp [handleConnectionSync, hne]

/-- Closed instance of `handleConnection_errors` (a `"join"` action is not a
trade). -/
theorem handleConnection_errors_witness :
    handleConnectionSync
        (.request ⟨some "join", none, none, none⟩) [0] =
      (some (.error "unknown_action"), [0]) :=
  (handleConnection_errors [0]).2 ⟨some "join", none, none, none⟩ (by decide)

lemma processOnceLoop_count (pending : List InboundData) :
    ∀ (maxConn processed : ℕ) (numbers : List ℤ),
      (processOnceLoop maxConn processed pending numbers).1 =
        processed + min (maxConn - processed) pending.length := by
  induction pending with
  | nil =>
      intro maxConn processed numbers
      unfold processOnceLoop
      split_ifs <;> simp
  | cons c rest ih =>
      intro maxConn processed numbers
      unfold processOnceLoop
      split_ifs with h
      · rw [ih]
        simp only [List.length_cons]
        omega
      · simp
        omega

lemma processOnceLoop_rest (pending : List InboundData) :
    ∀ (maxConn processed : ℕ) (numbers : List ℤ),
      (processOnceLoop maxConn processed pending numbers).2.1 =
        pending.drop (maxConn - processed) := by
  induction pending with
  | nil =>
      intro maxConn processed numbers
      unfold processOnceLoop
      split_ifs <;> simp
  | cons c rest ih =>
      intro maxConn processed numbers
      unfold processOnceLoop
      split_ifs with h
      · rw [ih]
        have : maxConn - processed = (maxConn - (processed + 1)) + 1 := by omega
        rw [this, List.drop_succ_cons]
      · have : maxConn - processed = 0 := by omega
        rw [this, List.drop_zero]

/-- C8: one `process_once` call handles exactly `min 5 (number pending)`
connections — each synchronously to completion before the next is accepted —
leaves the rest of the backlog untouched, and on an empty backlog handles
nothing and returns at once with the inventory unchanged. -/
theorem processOnce_batch (pending : List InboundData) (numbers : List ℤ) :
    (processOnce pending numbers).1 = min 5 pending.length ∧
    (processOnce pending numbers).2.1 = pending.drop 5 ∧
    processOnce [] numbers = (0, [], numbers) := by
  refine ⟨?_, ?_, ?_⟩
  · rw [processOnce, processOnceLoop_count]
    omega
  · rw [processOnce, processOnceLoop_rest]
  · rfl

lemma pyInt_of_nonneg (q : ℚ) (h : 0 ≤ q) : pyInt q = ⌊q⌋ := if_pos h

lemma pyInt_intCast (m : ℤ) : pyInt (m : ℚ) = m := by
  unfold pyInt
  split_ifs <;> simp

/-- C2: with a fixed epoch, positive turn duration and positive client count,
the active turn hits slot `turn` at `epoch + k·(td·N) + (turn−1)·td` for every
cycle `k ≥ 0`; it always lies in `1..N`; and stepping time by one turn
duration moves it to the cyclic successor, so it cycles monotonically through
`1..N`. -/
theorem activeTurn_schedule (N : ℕ) (td epoch : ℚ) (hN : 0 < N) (htd : 0 < td) :
    (∀ (k : ℕ) (turn : ℤ), 1 ≤ turn → turn ≤ N →
      activeTurn N td epoch (epoch + k * (td * N) + (turn - 1) * td) = turn) ∧
    (∀ now : ℚ, 1 ≤ activeTurn N td epoch now ∧ activeTurn N td epoch now ≤ N) ∧
    (∀ now : ℚ, epoch ≤ now →
      activeTurn N td epoch (now + td) = activeTurn N td epoch now % N + 1) := by
  have hne : td ≠ 0 := ne_of_gt htd
  have hNZ : ((N : ℤ)) ≠ 0 := by exact_mod_cast hN.ne'
  refine ⟨?_, ?_, ?_⟩
  · intro k turn h1 h2
    unfold activeTurn getCurrentTurn
    have harg : epoch + (k : ℚ) * (td * N) + ((turn : ℚ) - 1) * td - epoch
        = ((k * N + (turn - 1) : ℤ) : ℚ) * td := by
      push_cast
      ring
    rw [harg, mul_div_cancel_right₀ _ hne, pyInt_intCast]
    have hmod : (k * (N : ℤ) + (turn - 1)) % (N : ℤ) = turn - 1 := by
      rw [add_comm, mul_comm, Int.add_mul_emod_self_left]
      exact Int.emod_eq_of_lt (by omega) (by omega)
    rw [hmod]
    omega
  · intro now
    unfold activeTurn getCurrentTurn
    have h0 := Int.emod_nonneg (pyInt ((now - epoch) / td)) hNZ
    have h1 := Int.emod_lt_of_pos (pyInt ((now - epoch) / td))
      (show (0 : ℤ) < N by exact_mod_cast hN)
    omega
  · intro now hnow
    have he : 0 ≤ (now - epoch) / td := div_nonneg (by linarith) htd.le
    unfold activeTurn getCurrentTurn
    have harg : now + td - epoch = (now - epoch) + td := by ring
    rw [harg]
    have hdiv : ((now - epoch) + td) / td = (now - epoch) / td + 1 := by
      field_simp
    rw [hdiv, pyInt_of_nonneg _ (by linarith), pyInt_of_nonneg _ he,
      Int.floor_add_one]
    have hsplit : (⌊(now - epoch) / td⌋ + 1) % (N : ℤ)
        = (⌊(now - epoch) / td⌋ % (N : ℤ) + 1) % (N : ℤ) := by
      conv_lhs => rw [Int.add_emod]
      conv_rhs => rw [Int.add_emod, Int.emod_emod_of_dvd _ dvd_rfl]
    rw [hsplit]

/-- Closed instance of `activeTurn_schedule`: three peers, 10s slots, epoch 0;
at `t = 40 = 1·(10·3) + (2−1)·10` the active turn is 2. -/
theorem activeTurn_schedule_witness : activeTurn 3 10 0 40 = 2 := by
  have h := (activeTurn_schedule 3 10 0 (by norm_num) (by norm_num)).1 1 2
    (by norm_num) (by norm_num)
  norm_num at h
  exact h

/-- C4 evidence: `is_my_turn()` is
`current == my_turn and not my_turn_completed`, so from the moment
`complete_my_turn()` sets the flag it returns `False` at every instant —
including when the clock has cycled back to the peer's own slot (with 2
clients and 10s slots, slot 1 is active again at `elapsed = 20`) — hence the
guard of `while not self.is_my_turn()` in `wait_for_my_turn` stays true
forever and the flag reset after that loop is unreachable. -/
theorem completedFlag_blocks_isMyTurn :
    getCurrentTurn 2 10 20 = 1 ∧
    (∀ (elapsed : ℚ) (N : ℕ) (td : ℚ) (myTurn : ℤ),
      isMyTurn N td myTurn (completeMyTurn false) elapsed = false) := by
  constructor
  · norm_num [getCurrentTurn, pyInt]
  · intro elapsed N td myTurn
    simp [isMyTurn, completeMyTurn]

/-- C6: for nonnegative elapsed time, the cycle-based computation of
`get_remaining_turn_time` equals the closed form
`turn_duration − (elapsed mod turn_duration)`, and its value lies in
`(0, turn_duration]`. -/
theorem getRemainingTurnTime_closed_form (N : ℕ) (td elapsed : ℚ)
    (hN : 0 < N) (htd : 0 < td) (he : 0 ≤ elapsed) :
    getRemainingTurnTime N td elapsed
        = td - (elapsed - td * ⌊elapsed / td⌋) ∧
    0 < getRemainingTurnTime N td elapsed ∧
    getRemainingTurnTime N td elapsed ≤ td := by
  have hne : td ≠ 0 := ne_of_gt htd
  have hNQ : (0 : ℚ) < (N : ℚ) := by exact_mod_cast hN
  have hNZ : ((N : ℤ)) ≠ 0 := by exact_mod_cast hN.ne'
  have hcd : (0 : ℚ) < (N : ℚ) * td := mul_pos hNQ htd
  obtain ⟨q, hqdef⟩ : ∃ q : ℤ, ⌊elapsed / td⌋ = q := ⟨_, rfl⟩
  have hq0 : 0 ≤ q := hqdef ▸ Int.floor_nonneg.2 (div_nonneg he htd.le)
  have hfl : (q : ℚ) ≤ elapsed / td := by
    rw [← hqdef]
    exact Int.floor_le _
  have hfu : elapsed / td < (q : ℚ) + 1 := by
    rw [← hqdef]
    exact Int.lt_floor_add_one _
  have hr0 : 0 ≤ elapsed - (q : ℚ) * td := by
    have := (le_div_iff₀ htd).1 hfl
    linarith
  have hr1 : elapsed - (q : ℚ) * td < td := by
    have := (div_lt_iff₀ htd).1 hfu
    linarith
  obtain ⟨e, hedef⟩ : ∃ e : ℤ, q / (N : ℤ) = e := ⟨_, rfl⟩
  obtain ⟨m, hmdef⟩ : ∃ m : ℤ, q % (N : ℤ) = m := ⟨_, rfl⟩
  have hm0 : 0 ≤ m := hmdef ▸ Int.emod_nonneg q hNZ
  have hmN : m < N := hmdef ▸ Int.emod_lt_of_pos q (by exact_mod_cast hN)
  have hdm : (N : ℤ) * e + m = q := by
    rw [← hedef, ← hmdef]
    exact Int.ediv_add_emod q N
  have hdmQ : (N : ℚ) * (e : ℚ) + (m : ℚ) = (q : ℚ) := by exact_mod_cast hdm
  have hm0Q : (0 : ℚ) ≤ (m : ℚ) := by exact_mod_cast hm0
  have hm1NQ : (m : ℚ) + 1 ≤ (N : ℚ) := by exact_mod_cast hmN
  have hNet : (N : ℚ) * (e : ℚ) * td = ((q : ℚ) - m) * td := by
    have h : (N : ℚ) * (e : ℚ) = (q : ℚ) - m := by linarith
    rw [h]
  have hcycle : ⌊elapsed / ((N : ℚ) * td)⌋ = e := by
    rw [Int.floor_eq_iff]
    constructor
    · rw [le_div_iff₀ hcd]
      nlinarith [hNet, hr0, mul_nonneg hm0Q htd.le]
    · rw [div_lt_iff₀ hcd]
      nlinarith [hNet, hr1,
        mul_nonneg (by linarith : (0 : ℚ) ≤ (N : ℚ) - (m : ℚ) - 1) htd.le]
  have hval : getRemainingTurnTime N td elapsed = td - (elapsed - (q : ℚ) * td) := by
    simp only [getRemainingTurnTime, getCurrentTurn]
    rw [pyInt_of_nonneg _ (div_nonneg he htd.le),
      pyInt_of_nonneg _ (div_nonneg he hcd.le), hqdef, hcycle, hmdef]
    have harith : ((e : ℤ) : ℚ) * ((N : ℚ) * td) + (((m + 1 : ℤ) : ℚ) - 1) * td
        = (q : ℚ) * td := by
      push_cast
      linear_combination td * hdmQ
    rw [harith]
    exact max_eq_right (by linarith)
  refine ⟨?_, ?_, ?_⟩
  · rw [hval, hqdef]
    ring
  · rw [hval]
    linarith
  · rw [hval]
    linarith

/-- Closed instance of `getRemainingTurnTime_closed_form`: 3 peers, 10s
turns, 7s elapsed — 3s remain. -/
theorem getRemainingTurnTime_closed_form_witness :
    getRemainingTurnTime 3 10 7 = 10 - ((7 : ℚ) - 10 * ⌊(7 : ℚ) / 10⌋) :=
  (getRemainingTurnTime_closed_form 3 10 7 (by norm_num) (by norm_num)
    (by norm_num)).1

end Talleres
